import Mathlib

/-!
Verification of the core of `conventional-changelog-writer`
(`lib/immutable.js`, `lib/util.js`, `index.js`).

JavaScript values are embedded as the inductive type `JSVal`; objects are
insertion-ordered association lists (JS objects preserve insertion order for
string keys, which is the only kind of key this code creates).  Fallible
operations (property access on `null`/`undefined`, strict-mode assignment to a
primitive) are modelled with `Option`, `none` standing for a thrown
`TypeError`.
-/

inductive JSVal where
  | undef
  | null
  | bool (b : Bool)
  | num (n : Int)
  | str (s : String)
  | obj (fields : List (String × JSVal))
  | arr (elems : List JSVal)

/-- JavaScript truthiness: `undefined`, `null`, `false`, `0`, `''` are falsy;
every object and array is truthy. -/
def truthy : JSVal → Bool
  | .undef => false
  | .null => false
  | .bool b => b
  | .num n => n != 0
  | .str s => s != ""
  | .obj _ => true
  | .arr _ => true

/-- JavaScript strict equality `===` on the values this code compares.
Primitives compare structurally.  Two object (or array) operands compare by
reference identity, which a pure value model cannot track; note-group titles
are strings in this code, so object operands are modelled as never equal. -/
def strictEq : JSVal → JSVal → Bool
  | .undef, .undef => true
  | .null, .null => true
  | .bool a, .bool b => a == b
  | .num a, .num b => a == b
  | .str a, .str b => a == b
  | _, _ => false

/-- First binding of a key in an object's field list (JS objects never hold
duplicate keys, so this is the binding). -/
def lookupField : List (String × JSVal) → String → Option JSVal
  | [], _ => none
  | (k', v) :: fs, k => if k' = k then some v else lookupField fs k

/-- JS property read `v[k]`, for values on which it does not throw: a missing
key on an object, or any key on a primitive, reads as `undefined`.  (Reading a
property of `null`/`undefined` throws; callers that may do so go through
`indexM`.)  Array index/`length` properties are outside the model: this code
never reads fields off an array. -/
def index (v : JSVal) (k : String) : JSVal :=
  match v with
  | .obj fs => (lookupField fs k).getD JSVal.undef
  | _ => JSVal.undef

/-- JS property read that can throw: `null`/`undefined` receivers raise a
`TypeError`, modelled as `none`. -/
def indexM (v : JSVal) (k : String) : Option JSVal :=
  match v with
  | .undef => none
  | .null => none
  | _ => some (index v k)

/-- Setting `[k] := v` on an object's field list: an existing binding is
overwritten in place (JS keeps the key's original position), a new key is
appended at the end. -/
def objUpdate : List (String × JSVal) → String → JSVal → List (String × JSVal)
  | [], k, v => [(k, v)]
  | (k', v') :: fs, k, v =>
      if k' = k then (k, v) :: fs else (k', v') :: objUpdate fs k v

/-- Fields contributed by spreading `{...v}`: an object's own fields;
`null`/`undefined` and other primitives contribute nothing.  (Spreading a
string would contribute its character-index properties; this code never
spreads a string.) -/
def spreadFields : JSVal → List (String × JSVal)
  | .obj fs => fs
  | _ => []

/-- JS property assignment `v.k := x` on a value known to be an object; on a
primitive receiver a strict-mode assignment throws, modelled here as leaving
the value unchanged because every caller in this file assigns to an object. -/
def objAssign (v : JSVal) (k : String) (x : JSVal) : JSVal :=
  match v with
  | .obj fs => .obj (objUpdate fs k x)
  | w => w

/-! ### `lib/immutable.js` : `get` and `set` -/

/-- Split a character list at every occurrence of `c`; never returns `[]`
(the empty input yields `[[]]`), matching JS `String.prototype.split` with a
single-character separator. -/
def splitCharL (c : Char) : List Char → List (List Char)
  | [] => [[]]
  | x :: xs =>
    if x = c then [] :: splitCharL c xs
    else
      match splitCharL c xs with
      | [] => [[x]]
      | h :: t => (x :: h) :: t

/-- JS `path.split('.')` (structurally recursive, so concrete paths
compute). -/
def splitPath (path : String) : List String :=
  (splitCharL '.' path.data).map (fun l => String.mk l)

/-- The reduction step of `get`:
`(context, key) => context ? context[key] : context`. -/
def getStep (c : JSVal) (k : String) : JSVal :=
  if truthy c then index c k else c

/-- `get` after the path has been split on `'.'`. -/
def getParts (context : JSVal) (parts : List String) : JSVal :=
  parts.foldl getStep context

/-- `get(context, path)` from `lib/immutable.js`: split the dotted path and
reduce, short-circuiting on any falsy intermediate value. -/
def get (context : JSVal) (path : String) : JSVal :=
  getParts context (splitPath path)

/-- `set(context, path, value)` from `lib/immutable.js`, on the split path.
`none` models the `TypeError` thrown when the recursion evaluates
`context[key]` with `context` equal to `null`/`undefined` and at least two
path segments remaining.  An exhausted or falsy-headed path returns the input
unchanged. -/
def setM (context : JSVal) (parts : List String) (value : JSVal) : Option JSVal :=
  match parts with
  | [] => some context
  | key :: rest =>
    if key = "" then
      some context
    else if rest.isEmpty then
      some (.obj (objUpdate (spreadFields context) key value))
    else
      match indexM context key with
      | none => none
      | some inner =>
        match setM inner rest value with
        | none => none
        | some v => some (.obj (objUpdate (spreadFields context) key v))

/-- `set(context, path, value)` on a dotted string path. -/
def set (context : JSVal) (path : String) (value : JSVal) : Option JSVal :=
  setM context (splitPath path) value

/-! ### Basic lemmas about the path accessor -/

theorem getParts_append (c : JSVal) (xs ys : List String) :
    getParts c (xs ++ ys) = getParts (getParts c xs) ys := by
  simp [getParts, List.foldl_append]

theorem getParts_falsy (c : JSVal) (hc : truthy c = false) (ys : List String) :
    getParts c ys = c := by
  induction ys with
  | nil => rfl
  | cons y ys ih =>
    have h1 : getStep c y = c := by simp [getStep, hc]
    calc getParts c (y :: ys) = getParts (getStep c y) ys := rfl
      _ = getParts c ys := by rw [h1]
      _ = c := ih

theorem lookupField_objUpdate_self (fs : List (String × JSVal)) (k : String) (v : JSVal) :
    lookupField (objUpdate fs k v) k = some v := by
  induction fs with
  | nil => simp [objUpdate, lookupField]
  | cons f fs ih =>
    by_cases h : f.1 = k
    · simp [objUpdate, h, lookupField]
    · simp [objUpdate, h, lookupField, ih]

theorem index_objUpdate_self (fs : List (String × JSVal)) (k : String) (v : JSVal) :
    index (.obj (objUpdate fs k v)) k = v := by
  simp [index, lookupField_objUpdate_self]

theorem setM_single (r : JSVal) (k : String) (v : JSVal) (hk : k ≠ "") :
    setM r [k] v = some (.obj (objUpdate (spreadFields r) k v)) := by
  rw [setM]
  simp [hk]

theorem setM_cons_cons (r : JSVal) (k r1 : String) (rs : List String) (v : JSVal)
    (hk : k ≠ "") :
    setM r (k :: r1 :: rs) v =
      match indexM r k with
      | none => none
      | some inner =>
        match setM inner (r1 :: rs) v with
        | none => none
        | some v' => some (.obj (objUpdate (spreadFields r) k v')) := by
  conv_lhs => rw [setM]
  simp [hk]

/-- Helper for the get/set round trip, by induction on the split path. -/
theorem getParts_setM (parts : List String) :
    ∀ (r : JSVal) (v r' : JSVal), parts ≠ [] → (∀ p ∈ parts, p ≠ "") →
      setM r parts v = some r' → getParts r' parts = v := by
  induction parts with
  | nil => intro r v r' hne _ _; exact absurd rfl hne
  | cons k rest ih =>
    intro r v r' _ hseg hset
    have hk : k ≠ "" := hseg k (by simp)
    match rest, ih with
    | [], _ =>
      rw [setM_single r k v hk] at hset
      simp only [Option.some.injEq] at hset
      subst hset
      simp [getParts, getStep, truthy, index_objUpdate_self]
    | r1 :: rs, ih =>
      rw [setM_cons_cons r k r1 rs v hk] at hset
      match hidx : indexM r k with
      | none => rw [hidx] at hset; exact absurd hset (by simp)
      | some inner =>
        rw [hidx] at hset
        dsimp only at hset
        match hrec : setM inner (r1 :: rs) v with
        | none => rw [hrec] at hset; exact absurd hset (by simp)
        | some v' =>
          rw [hrec] at hset
          simp only [Option.some.injEq] at hset
          subst hset
          have hrest : getParts v' (r1 :: rs) = v :=
            ih inner v v' (by simp) (fun p hp => hseg p (by simp [hp])) hrec
          calc getParts (.obj (objUpdate (spreadFields r) k v')) (k :: r1 :: rs)
              = getParts v' (r1 :: rs) := by
                simp [getParts, getStep, truthy, index_objUpdate_self]
            _ = v := hrest

/-! ### `lib/util.js` : `cloneCommit` -/

/-- `typeof v === 'object'` (true for objects, arrays and `null`). -/
def isObjectType : JSVal → Bool
  | .obj _ => true
  | .arr _ => true
  | .null => true
  | _ => false

mutual

/-- `cloneCommit` from `lib/util.js`: falsy or non-object values pass through,
arrays map the clone over their elements, objects copy every field, recursing
into object-typed field values. -/
def cloneCommit : JSVal → JSVal
  | .arr es => .arr (cloneElems es)
  | .obj fs => .obj (cloneFields fs)
  | v => v

def cloneElems : List JSVal → List JSVal
  | [] => []
  | v :: vs => cloneCommit v :: cloneElems vs

def cloneFields : List (String × JSVal) → List (String × JSVal)
  | [] => []
  | (k, v) :: fs => (k, if isObjectType v then cloneCommit v else v) :: cloneFields fs

end

/-! ### `lib/util.js` : `processCommit` -/

/-- One entry of a field-map transform: `typeof el === 'function'` applies
`el(value, path)`, anything else replaces the value with the literal. -/
inductive FieldRule where
  | fn (f : JSVal → String → JSVal)
  | lit (v : JSVal)

/-- The `transform` option as `processCommit` dispatches on it: a function
(called with `(commit, context)`), a field map (path → rule, in
`Object.entries` order), or absent/falsy. -/
inductive Transform where
  | tfn (f : JSVal → JSVal → JSVal)
  | tmap (rules : List (String × FieldRule))
  | tnone

/-- `commit.raw = chunk`.  The receiver is an object everywhere this code
attaches `raw`; a strict-mode assignment to a primitive would throw, modelled
as `none`.  (A truthy array receiver would succeed in JS; no code path here
produces one, so arrays are modelled as the thrown case too.) -/
def attachRaw (commit chunk : JSVal) : Option JSVal :=
  match commit with
  | .obj fs => some (.obj (objUpdate fs "raw" chunk))
  | _ => none

/-- The field-map loop of `processCommit`: for each declared path read the
current value with `get`, rewrite it through the rule, and write it back with
`set` (whose `TypeError` propagates). -/
def applyRules : JSVal → List (String × FieldRule) → Option JSVal
  | commit, [] => some commit
  | commit, (path, rule) :: rest =>
    let value := get commit path
    let value := match rule with | .fn f => f value path | .lit v => v
    match set commit path value with
    | none => none
    | some commit' => applyRules commit' rest

/-- `processCommit` after the `JSON.parse` try/catch: `chunk` is the
post-decode payload.  Clone it; a function transform runs on the clone and,
when its result is truthy, gets `raw = chunk` attached (a falsy result is
returned as-is); a field-map transform applies every rule and then attaches
`raw` unconditionally; with no transform the clone gets `raw` attached. -/
def processDecoded (t : Transform) (context chunk : JSVal) : Option JSVal :=
  let commit := cloneCommit chunk
  match t with
  | .tfn f =>
    let commit := f commit context
    if truthy commit then attachRaw commit chunk else some commit
  | .tmap rules =>
    match applyRules commit rules with
    | none => none
    | some commit' => attachRaw commit' chunk
  | .tnone => attachRaw commit chunk

/-- `processCommit(chunk, transform, context)` from `lib/util.js`.  `decode`
stands for the external `JSON.parse`: `none` models a parse failure, which the
`try/catch` swallows, keeping the original chunk. -/
def processCommit (decode : JSVal → Option JSVal) (t : Transform)
    (context chunk : JSVal) : Option JSVal :=
  processDecoded t context (match decode chunk with | some v => v | none => chunk)

/-! ### `lib/util.js` : `getCommitGroups` / `getNoteGroups` -/

/-- JS `ToString` as used when a grouping value becomes an object property
key.  Array stringification (join of elements) is modelled shallowly as the
empty string; nothing here groups by an array. -/
def toPropKey : JSVal → String
  | .str s => s
  | .num n => toString n
  | .bool b => if b then "true" else "false"
  | .null => "null"
  | .undef => "undefined"
  | .obj _ => "[object Object]"
  | .arr _ => ""

/-- The grouping key of `getCommitGroups`: `commit[groupBy] || ''`, coerced to
a property key — any falsy grouping value yields the empty key. -/
def keyOf (groupBy : String) (c : JSVal) : String :=
  let v := index c groupBy
  if truthy v then toPropKey v else ""

/-- Display title for a commit-group key: the empty key becomes the literal
`false`, any other key stays a string. -/
def titleOfKey (k : String) : JSVal :=
  if k = "" then .bool false else .str k

/-- `Array.prototype.sort` with a user comparator: stable, ordered by
`cmp a b < 0`; modelled by the stable `List.mergeSort`. -/
def jsSort {α : Type} (cmp : α → α → Int) (l : List α) : List α :=
  l.mergeSort (fun a b => decide (cmp a b ≤ 0))

/-- Shared accumulation step of both grouping loops: append the element to
every existing group whose key matches (`keq stored new`; keys are unique, so
at most one matches), or open a new group at the end of the list.  For
`getCommitGroups` this is the JS-object update `groups[key].push(commit)` /
`groups[key] = [commit]`; for `getNoteGroups` it is the explicit
`retGroups` scan. -/
def upsert {κ α : Type} (keq : κ → κ → Bool) (gs : List (κ × List α))
    (k : κ) (a : α) : List (κ × List α) :=
  if gs.any (fun g => keq g.1 k) then
    gs.map (fun g => if keq g.1 k then (g.1, g.2 ++ [a]) else g)
  else
    gs ++ [(k, [a])]

/-- The numeric value of a canonical array-index property key: the decimal
representation of a non-negative integer below `2^32 - 1`, with no leading
zero (except `"0"` itself); `none` for every other string. -/
def arrayIndexVal (s : String) : Option Nat :=
  if s.data ≠ [] ∧ s.data.all Char.isDigit
      ∧ (s.data.length = 1 ∨ s.data.head? ≠ some '0') then
    let n := s.data.foldl (fun n c => n * 10 + (c.toNat - '0'.toNat)) 0
    if n < 4294967295 then some n else none
  else none

def isArrayIndex (s : String) : Bool := (arrayIndexVal s).isSome

/-- Insert into a list sorted ascending by `key` (structurally recursive, so
concrete inputs compute). -/
def insertByKey {γ : Type} (key : γ → Nat) (e : γ) : List γ → List γ
  | [] => [e]
  | x :: xs => if key e < key x then e :: x :: xs else x :: insertByKey key e xs

/-- Insertion sort ascending by `key`. -/
def sortByKey {γ : Type} (key : γ → Nat) : List γ → List γ
  | [] => []
  | x :: xs => insertByKey key x (sortByKey key xs)

/-- `Object.entries` enumeration order over an object's fields: canonical
array-index keys first, in ascending numeric order, then the remaining
(string) keys in insertion order. -/
def jsEntriesOrder {β : Type} (entries : List (String × β)) : List (String × β) :=
  sortByKey (fun e => (arrayIndexVal e.1).getD 0)
      (entries.filter (fun e => isArrayIndex e.1))
    ++ entries.filter (fun e => !isArrayIndex e.1)

structure CommitGroup where
  title : JSVal
  commits : List JSVal

structure NoteGroup where
  title : JSVal
  notes : List JSVal

/-- `getCommitGroups(groupBy, commits, groupsSort, commitsSort)` from
`lib/util.js`: bucket the commits by `keyOf` into the `groups` object, then
walk `Object.entries` of it — array-index-like keys first in ascending order,
then string keys in insertion order, per JS property enumeration — turning
each bucket into a `{title, commits}` group (empty key → title `false`),
sorting each bucket first when `commitsSort` is given, then sorting the group
list when `groupsSort` is given. -/
def getCommitGroups (groupBy : String) (commits : List JSVal)
    (groupsSort : Option (CommitGroup → CommitGroup → Int))
    (commitsSort : Option (JSVal → JSVal → Int)) : List CommitGroup :=
  let entries := commits.foldl (fun gs c => upsert (fun a b => a == b) gs (keyOf groupBy c) c) []
  let groups := (jsEntriesOrder entries).map (fun e =>
    { title := titleOfKey e.1,
      commits := match commitsSort with | some cmp => jsSort cmp e.2 | none => e.2 : CommitGroup })
  match groupsSort with
  | some cmp => jsSort cmp groups
  | none => groups

/-- `getNoteGroups(notes, noteGroupsSort, notesSort)` from `lib/util.js`:
bucket the notes by their `title` field under strict equality, in
first-seen-title order, then optionally sort the group list and each group's
notes. -/
def getNoteGroups (notes : List JSVal)
    (noteGroupsSort : Option (NoteGroup → NoteGroup → Int))
    (notesSort : Option (JSVal → JSVal → Int)) : List NoteGroup :=
  let entries := notes.foldl (fun gs n => upsert strictEq gs (index n "title") n) []
  let groups := entries.map (fun e => NoteGroup.mk e.1 e.2)
  let groups := match noteGroupsSort with | some cmp => jsSort cmp groups | none => groups
  match notesSort with
  | some cmp => groups.map (fun g => { g with notes := jsSort cmp g.notes })
  | none => groups

/-! ### The external `semver` collaborator -/

/-- Identifier characters of prerelease/build identifiers: ASCII
alphanumerics and hyphen. -/
def isIdentChar (c : Char) : Bool := c.isAlphanum || c == '-'

/-- Split a character list at the first occurrence of `c`: the part before
it, and the part after it when `c` occurs at all. -/
def splitFirst (c : Char) : List Char → List Char × Option (List Char)
  | [] => ([], none)
  | x :: xs =>
    if x = c then ([], some xs)
    else
      let r := splitFirst c xs
      (x :: r.1, r.2)

/-- Decimal value of a digit list (digits only, else `none`). -/
def parseDigits (l : List Char) : Option Nat :=
  if l ≠ [] ∧ l.all Char.isDigit then
    some (l.foldl (fun n c => n * 10 + (c.toNat - '0'.toNat)) 0)
  else none

/-- Numeric identifier of the version core: digits only, no leading zero. -/
def validNum (l : List Char) : Bool :=
  (parseDigits l).isSome && (l.length == 1 || l.head? != some '0')

/-- Prerelease identifier: nonempty, alphanumeric/hyphen, and an all-digits
identifier may not have a leading zero. -/
def validPreId (l : List Char) : Bool :=
  !l.isEmpty && l.all isIdentChar &&
    (if l.all Char.isDigit then l.length == 1 || l.head? != some '0' else true)

/-- Build identifier: nonempty, alphanumeric/hyphen. -/
def validBuildId (l : List Char) : Bool :=
  !l.isEmpty && l.all isIdentChar

/-- Modelled from the spec: the external `semver` package (not part of this
repository) and its notion of a "syntactically valid semantic version" —
`major.minor.patch` of numeric identifiers without leading zeros, an optional
`-prerelease` of dot-separated identifiers, an optional `+build` of
dot-separated identifiers, after trimming whitespace and an optional leading
`v`.  Returns the three numeric components when valid. -/
def parseSemver (s : String) : Option (Nat × Nat × Nat) :=
  let l := (s.data.dropWhile Char.isWhitespace).reverse.dropWhile Char.isWhitespace |>.reverse
  let l := match l with
    | 'v' :: rest => rest
    | _ => l
  let corePreBuild := splitFirst '+' l
  let corePre := splitFirst '-' corePreBuild.1
  match splitCharL '.' corePre.1 with
  | [ma, mi, pa] =>
    if validNum ma && validNum mi && validNum pa
        && (match corePre.2 with
            | none => true
            | some p => (splitCharL '.' p).all validPreId)
        && (match corePreBuild.2 with
            | none => true
            | some b => (splitCharL '.' b).all validBuildId) then
      some ((parseDigits ma).getD 0, (parseDigits mi).getD 0, (parseDigits pa).getD 0)
    else none
  | _ => none

/-- Modelled from the spec: `semver.valid` — the version string when valid,
`null` (here `none`) otherwise; a non-string argument is never valid. -/
def semverValid (v : JSVal) : Option String :=
  match v with
  | .str s => if (parseSemver s).isSome then some s else none
  | _ => none

/-! ### `lib/util.js` : `generate`'s context assembly -/

/-- Lines 240–242 of `lib/util.js`:
`if (context.version && semver.valid(context.version))`
`context.isPatch = context.isPatch || semver.patch(context.version) !== 0`.
A truthy pre-existing `isPatch` keeps its value; otherwise `isPatch` becomes
the boolean `patch ≠ 0`.  An absent, falsy, or invalid version leaves the
context untouched. -/
def applyIsPatch (ctx : JSVal) : JSVal :=
  if truthy (index ctx "version") then
    match index ctx "version" with
    | .str s =>
      match parseSemver s with
      | some t =>
        objAssign ctx "isPatch"
          (if truthy (index ctx "isPatch") then index ctx "isPatch"
           else .bool (t.2.2 != 0))
      | none => ctx
    | _ => ctx
  else ctx

/-- The object-literal spread `{...a, ...b}` on field lists: `b`'s fields are
folded in, overwriting existing keys in place and appending new keys. -/
def mergeFields (a b : List (String × JSVal)) : List (String × JSVal) :=
  b.foldl (fun acc kv => objUpdate acc kv.1 kv.2) a

/-- `commit.notes`; the data model guarantees an array, any other value is
modelled as the empty note list. -/
def notesOf (c : JSVal) : List JSVal :=
  match index c "notes" with
  | .arr ns => ns
  | _ => []

/-- `{...note, commit}`: the flattened note carries a back-reference to the
commit it came from. -/
def annotateNote (c n : JSVal) : JSVal :=
  .obj (objUpdate (spreadFields n) "commit" c)

/-- The note-flattening map of `generate`: each commit is replaced by
`{...commit, notes: annotated}` and the annotated notes are pushed onto one
flat list, commit by commit, note by note, in order. -/
def flattenNotes (cs : List JSVal) : List JSVal × List JSVal :=
  cs.foldl (fun acc c =>
    let ns := (notesOf c).map (annotateNote c)
    (acc.1 ++ [.obj (objUpdate (spreadFields c) "notes" (.arr ns))], acc.2 ++ ns))
    ([], [])

/-- The options `generate` consults while assembling the render context.
`filterReverted` stands for the external `conventional-commits-filter`
collaborator. -/
structure GenOpts where
  groupBy : String
  commitGroupsSort : Option (CommitGroup → CommitGroup → Int)
  commitsSort : Option (JSVal → JSVal → Int)
  noteGroupsSort : Option (NoteGroup → NoteGroup → Int)
  notesSort : Option (JSVal → JSVal → Int)
  ignoreReverted : Bool
  filterReverted : List JSVal → List JSVal

def commitGroupToJS (g : CommitGroup) : JSVal :=
  .obj [("title", g.title), ("commits", .arr g.commits)]

def noteGroupToJS (g : NoteGroup) : JSVal :=
  .obj [("title", g.title), ("notes", .arr g.notes)]

/-- `getExtraContext(commits, notes, options)` from `lib/util.js`, as the
field list it contributes to the context. -/
def getExtraContext (commits notes : List JSVal) (o : GenOpts) :
    List (String × JSVal) :=
  [("commitGroups",
      .arr ((getCommitGroups o.groupBy commits o.commitGroupsSort o.commitsSort).map commitGroupToJS)),
   ("noteGroups",
      .arr ((getNoteGroups notes o.noteGroupsSort o.notesSort).map noteGroupToJS))]

/-- The context-assembly part of `generate(options, commits, context,
keyCommit)` from `lib/util.js`: filter reverted commits, flatten notes, merge
`{...context, ...keyCommit, ...extras}`, override `date` from a truthy key
commit's truthy `committerDate`, and compute `isPatch`.  A `keyCommit` of
`none` is the JS `undefined` (spreads nothing, fails the `keyCommit &&`
check).  Template compilation, the `finalizeContext` hook and the debug sink
consume this context and are outside the model; the engine abstracts the full
render as its `gen` parameter. -/
def generateContext (o : GenOpts) (commits : List JSVal) (context : JSVal)
    (keyCommit : Option JSVal) : JSVal :=
  let filteredCommits := if o.ignoreReverted then o.filterReverted commits else commits
  let fn := flattenNotes filteredCommits
  let ctx := JSVal.obj (mergeFields (mergeFields (spreadFields context)
      (match keyCommit with | some k => spreadFields k | none => []))
      (getExtraContext fn.1 fn.2 o))
  let ctx := match keyCommit with
    | some k =>
      if truthy k && truthy (index k "committerDate") then
        objAssign ctx "date" (index k "committerDate")
      else ctx
    | none => ctx
  applyIsPatch ctx

/-! ### `index.js` : the release segmentation engine -/

/-- The engine-relevant options of `finalOptions`. -/
structure EngineOpts where
  reverse : Bool
  doFlush : Bool
  includeDetails : Bool

/-- The loop state of `createChangelogAsyncGeneratorFromCommits`:
`commitsGroup`, `neverGenerated`, `savedKeyCommit` (`none` is the initial
`undefined`), `firstRelease`. -/
structure EngineState where
  commitsGroup : List JSVal
  neverGenerated : Bool
  savedKeyCommit : Option JSVal
  firstRelease : Bool

/-- The state before the first chunk. -/
def initState : EngineState :=
  { commitsGroup := [], neverGenerated := true, savedKeyCommit := none,
    firstRelease := true }

/-- One yielded item: the rendered text, or `{log, keyCommit}` when
`includeDetails` is set (`keyCommit : Option JSVal`, `none` being
`undefined`). -/
inductive Emission (α : Type) where
  | plain (log : α)
  | detailed (log : α) (keyCommit : Option JSVal)

/-- `keyCommit = commit || chunk`. -/
def keyCommitOf (commit chunk : JSVal) : JSVal :=
  if truthy commit then commit else chunk

/-- The yield of one render: `gen` abstracts
`generate(finalOptions, commitsGroup, finalContext, keyCommit)` (template
rendering and the finalize hook are external); the emission carries the key
commit when `includeDetails` is set. -/
def mkEmission {α : Type} (opts : EngineOpts) (gen : List JSVal → Option JSVal → α)
    (group : List JSVal) (key : Option JSVal) : Emission α :=
  if opts.includeDetails then .detailed (gen group key) key else .plain (gen group key)

/-- The per-chunk body of the `for await` loop.  `norm` abstracts
`processCommit(chunk, finalOptions.transform, finalContext)` (`none` is a
thrown error, which aborts the generator); `P` abstracts
`generateOn(keyCommit, commitsGroup, finalContext, finalOptions)` with the
fixed context and options folded in.  Reverse mode pushes the commit before
the boundary check and emits with the current key commit; forward mode checks
first, renders the accumulated group with `savedKeyCommit`, suppresses the
emission only for the very first release when `doFlush` is false, and pushes
the commit afterwards. -/
def engineStep {α : Type} (opts : EngineOpts) (P : JSVal → List JSVal → Bool)
    (gen : List JSVal → Option JSVal → α) (norm : JSVal → Option JSVal)
    (st : EngineState) (chunk : JSVal) : Option (EngineState × List (Emission α)) :=
  match norm chunk with
  | none => none
  | some commit =>
    let keyCommit := keyCommitOf commit chunk
    if opts.reverse then
      let group := if truthy commit then st.commitsGroup ++ [commit] else st.commitsGroup
      if P keyCommit group then
        some ({ st with commitsGroup := [], neverGenerated := false },
              [mkEmission opts gen group (some keyCommit)])
      else
        some ({ st with commitsGroup := group }, [])
    else
      if P keyCommit st.commitsGroup then
        some ({ commitsGroup := if truthy commit then [commit] else [],
                neverGenerated := false,
                savedKeyCommit := some keyCommit,
                firstRelease := false },
              if !st.firstRelease || opts.doFlush then
                [mkEmission opts gen st.commitsGroup st.savedKeyCommit]
              else [])
      else
        some ({ st with
                commitsGroup := if truthy commit then st.commitsGroup ++ [commit]
                                else st.commitsGroup }, [])

/-- The whole `for await` loop over a finite chunk list, collecting the
yielded emissions; a thrown error (`none`) aborts the run. -/
def runLoop {α : Type} (opts : EngineOpts) (P : JSVal → List JSVal → Bool)
    (gen : List JSVal → Option JSVal → α) (norm : JSVal → Option JSVal) :
    EngineState → List JSVal → Option (EngineState × List (Emission α))
  | st, [] => some (st, [])
  | st, chunk :: rest =>
    match engineStep opts P gen norm st chunk with
    | none => none
    | some (st', ems) =>
      match runLoop opts P gen norm st' rest with
      | none => none
      | some (st'', ems') => some (st'', ems ++ ems')

/-- Lines 206–222 of `index.js`: after the loop, return silently when
`!doFlush && (reverse || neverGenerated)`, else render the remaining group
keyed by `savedKeyCommit` and yield it. -/
def engineFinish {α : Type} (opts : EngineOpts) (gen : List JSVal → Option JSVal → α)
    (st : EngineState) : List (Emission α) :=
  if !opts.doFlush && (opts.reverse || st.neverGenerated) then []
  else [mkEmission opts gen st.commitsGroup st.savedKeyCommit]

/-- `createChangelogAsyncGeneratorFromCommits`, as the finite list of
emissions it yields for a finite input (or `none` when a chunk's processing
throws). -/
def runEngine {α : Type} (opts : EngineOpts) (P : JSVal → List JSVal → Bool)
    (gen : List JSVal → Option JSVal → α) (norm : JSVal → Option JSVal)
    (chunks : List JSVal) : Option (List (Emission α)) :=
  match runLoop opts P gen norm initState chunks with
  | none => none
  | some (st, ems) => some (ems ++ engineFinish opts gen st)

/-- The default boundary predicate (line 77 of `index.js`):
`commit => semverValid(commit.version)`, used through its truthiness. -/
def defaultGenerateOn (commit : JSVal) (_ : List JSVal) : Bool :=
  (semverValid (index commit "version")).isSome

/-! ## Claim theorems -/

theorem splitCharL_ne_nil (c : Char) (l : List Char) : splitCharL c l ≠ [] := by
  cases l with
  | nil => simp [splitCharL]
  | cons x xs =>
    rw [splitCharL]
    by_cases hx : x = c
    · simp [hx]
    · simp only [if_neg hx]
      cases splitCharL c xs <;> simp

theorem splitPath_ne_nil (path : String) : splitPath path ≠ [] := by
  simp [splitPath, splitCharL_ne_nil]

/-- **C4 counterexample**: the reduction step `ctx ? ctx[key] : ctx` returns
a falsy intermediate *itself*, not `undefined`: `get({a: null}, 'a.b.c')` is
`null` and `get({a: 0}, 'a.b')` is `0`, although in both cases the
intermediate segment `b` is missing (neither `null` nor `0` has a `b`
property) — so "returns undefined whenever any intermediate segment is
missing" is false on the program. -/
theorem c4_counterexample :
    get (JSVal.obj [("a", JSVal.null)]) "a.b.c" = JSVal.null
    ∧ JSVal.null ≠ JSVal.undef
    ∧ get (JSVal.obj [("a", JSVal.num 0)]) "a.b" = JSVal.num 0 := by
  refine ⟨rfl, ?_, rfl⟩
  intro h
  exact nomatch h

/-- **C4 (amended)**: `get` short-circuits on the first *falsy* traversal
value and returns it unchanged: whenever the value reached after some prefix
of the path's segments is falsy, every remaining step returns it as-is, so
the whole traversal yields exactly that value.  A key missing on a *truthy*
parent reads as `undefined`, which is falsy and therefore propagates to the
final result; but a falsy intermediate such as `null`, `0`, `''` or `false`
is returned itself.  `get` is a total function of the record (it never
reaches a property read on `null`/`undefined`), which is the model's form of
"null-safe, never throws". -/
theorem c4_falsy_short_circuit (r : JSVal) (path : String) (i : Nat)
    (h : truthy (getParts r ((splitPath path).take i)) = false) :
    get r path = getParts r ((splitPath path).take i) := by
  have h2 : get r path
      = getParts (getParts r ((splitPath path).take i)) ((splitPath path).drop i) := by
    rw [← getParts_append, List.take_append_drop]
    rfl
  rw [h2, getParts_falsy _ h]

theorem c4_falsy_short_circuit_witness :
    truthy (getParts (JSVal.obj [("a", JSVal.null)]) ((splitPath "a.b.c").take 1)) = false
    ∧ get (JSVal.obj [("a", JSVal.null)]) "a.b.c"
        = getParts (JSVal.obj [("a", JSVal.null)]) ((splitPath "a.b.c").take 1) :=
  ⟨rfl, c4_falsy_short_circuit (JSVal.obj [("a", JSVal.null)]) "a.b.c" 1 rfl⟩

/-- **C5 counterexample**: the claim quantifies over *every* record and every
dotted path with non-empty segments, but `set({}, 'a.b.c', v)` never returns
a record at all: the recursion reaches `set(undefined, ['b','c'], v)` and
evaluates `undefined['b']`, a thrown `TypeError` (modelled as `none`), so
`get(set(record, path, v), path)` is not `v` there — there is no result to
read from. -/
theorem c5_counterexample :
    set (JSVal.obj []) "a.b.c" (JSVal.num 1) = none := rfl

/-- **C5 (amended)**: for every record, every dotted path with non-empty
segments and every value, *whenever `set` returns a record* (it throws
exactly if the recursion meets a `null`/`undefined` intermediate with at
least two segments left; depth ≤ 2 paths never throw), reading the path back
with `get` yields the value just written.  `set` is a pure function in the
model, so the input record is unchanged by construction, which is the
claim's no-mutation clause. -/
theorem c5_get_set_roundtrip (r : JSVal) (path : String) (v r' : JSVal)
    (hseg : ∀ p ∈ splitPath path, p ≠ "") (h : set r path v = some r') :
    get r' path = v :=
  getParts_setM (splitPath path) r v r' (splitPath_ne_nil path) hseg h

theorem c5_get_set_roundtrip_witness :
    (∀ p ∈ splitPath "a.b", p ≠ "")
    ∧ set (JSVal.obj [("a", JSVal.obj [("b", JSVal.num 0)])]) "a.b" (JSVal.num 7)
        = some (JSVal.obj [("a", JSVal.obj [("b", JSVal.num 7)])])
    ∧ get (JSVal.obj [("a", JSVal.obj [("b", JSVal.num 7)])]) "a.b" = JSVal.num 7 :=
  ⟨by decide, rfl,
    c5_get_set_roundtrip (JSVal.obj [("a", JSVal.obj [("b", JSVal.num 0)])]) "a.b"
      (JSVal.num 7) (JSVal.obj [("a", JSVal.obj [("b", JSVal.num 7)])]) (by decide) rfl⟩

/-! ### Grouping lemmas: encounter order and bucket contents -/

/-- First-seen keys of `l` under `f`, in encounter order, comparing with
`keq stored new` — the order in which both grouping loops open groups. -/
def firstSeen {κ α : Type} (keq : κ → κ → Bool) (f : α → κ) (l : List α) : List κ :=
  l.foldl (fun acc a => if acc.any (fun x => keq x (f a)) then acc else acc ++ [f a]) []

/-- The accumulation shared by both grouping loops, from the empty group
list. -/
def groupFold {κ α : Type} (keq : κ → κ → Bool) (f : α → κ) (l : List α) :
    List (κ × List α) :=
  l.foldl (fun gs a => upsert keq gs (f a) a) []

theorem firstSeen_foldl_acc {κ α : Type} (keq : κ → κ → Bool) (f : α → κ)
    (l : List α) : ∀ acc : List κ,
    ∃ ext, List.foldl (fun acc a => if acc.any (fun x => keq x (f a)) then acc
                                    else acc ++ [f a]) acc l = acc ++ ext := by
  induction l with
  | nil => intro acc; exact ⟨[], by simp⟩
  | cons a l ih =>
    intro acc
    simp only [List.foldl_cons]
    obtain ⟨ext, hext⟩ := ih (if acc.any (fun x => keq x (f a)) then acc else acc ++ [f a])
    by_cases h : acc.any (fun x => keq x (f a)) = true
    · rw [if_pos h] at hext
      exact ⟨ext, by rw [if_pos h, hext]⟩
    · rw [if_neg h] at hext
      exact ⟨[f a] ++ ext, by rw [if_neg h, hext, List.append_assoc]⟩

theorem firstSeen_foldl_any_mono {κ α : Type} (keq : κ → κ → Bool) (f : α → κ)
    (l : List α) (acc : List κ) (p : κ → Bool) (h : acc.any p = true) :
    (List.foldl (fun acc a => if acc.any (fun x => keq x (f a)) then acc
                              else acc ++ [f a]) acc l).any p = true := by
  obtain ⟨ext, hext⟩ := firstSeen_foldl_acc keq f l acc
  rw [hext, List.any_append, h, Bool.true_or]

/-- Every element's key is matched by some stored first-seen key. -/
theorem firstSeen_covers {κ α : Type} (keq : κ → κ → Bool) (f : α → κ)
    (l : List α) (hrefl : ∀ a ∈ l, keq (f a) (f a) = true) :
    ∀ x ∈ l, (firstSeen keq f l).any (fun k => keq k (f x)) = true := by
  suffices hgen : ∀ (l' : List α), (∀ a ∈ l', keq (f a) (f a) = true) →
      ∀ (acc : List κ), ∀ x ∈ l',
      (List.foldl (fun acc a => if acc.any (fun y => keq y (f a)) then acc
                                else acc ++ [f a]) acc l').any (fun k => keq k (f x)) = true by
    intro x hx
    exact hgen l hrefl [] x hx
  intro l'
  induction l' with
  | nil => intro _ acc x hx; exact absurd hx (by simp)
  | cons a t ih =>
    intro hr acc x hx
    simp only [List.foldl_cons]
    rcases List.mem_cons.mp hx with hxa | hxt
    · subst hxa
      apply firstSeen_foldl_any_mono
      by_cases h : acc.any (fun y => keq y (f x)) = true
      · rw [if_pos h]; exact h
      · rw [if_neg h, List.any_append]
        have : keq (f x) (f x) = true := hr x (by simp)
        simp [this]
    · exact ih (fun b hb => hr b (by simp [hb])) _ x hxt

/-- Every first-seen key is the key of some element. -/
theorem firstSeen_subset {κ α : Type} (keq : κ → κ → Bool) (f : α → κ)
    (l : List α) : ∀ k ∈ firstSeen keq f l, ∃ x, x ∈ l ∧ k = f x := by
  suffices hgen : ∀ (l' : List α) (acc : List κ),
      ∀ k ∈ List.foldl (fun acc a => if acc.any (fun y => keq y (f a)) then acc
                                     else acc ++ [f a]) acc l',
      k ∈ acc ∨ ∃ x, x ∈ l' ∧ k = f x by
    intro k hk
    rcases hgen l [] k hk with hacc | hx
    · exact absurd hacc (by simp)
    · exact hx
  intro l'
  induction l' with
  | nil => intro acc k hk; exact Or.inl (by simpa using hk)
  | cons a t ih =>
    intro acc k hk
    simp only [List.foldl_cons] at hk
    rcases ih _ k hk with hacc | ⟨x, hx, hkx⟩
    · by_cases h : acc.any (fun y => keq y (f a)) = true
      · rw [if_pos h] at hacc
        exact Or.inl hacc
      · rw [if_neg h, List.mem_append] at hacc
        rcases hacc with h1 | h2
        · exact Or.inl h1
        · exact Or.inr ⟨a, by simp, by simpa using h2⟩
    · exact Or.inr ⟨x, by simp [hx], hkx⟩

theorem firstSeen_append_singleton {κ α : Type} (keq : κ → κ → Bool) (f : α → κ)
    (l : List α) (a : α) :
    firstSeen keq f (l ++ [a])
      = if (firstSeen keq f l).any (fun x => keq x (f a)) then firstSeen keq f l
        else firstSeen keq f l ++ [f a] := by
  simp [firstSeen, List.foldl_append]

/-- The two grouping loops build exactly the first-seen-ordered group list
whose buckets are the order-preserving filters of the input, provided the key
comparison is reflexive and equality-like on the keys that occur. -/
theorem groupFold_eq {κ α : Type} (keq : κ → κ → Bool) (f : α → κ) (l : List α)
    (hrefl : ∀ a ∈ l, keq (f a) (f a) = true)
    (htrans : ∀ p q t, p ∈ l → q ∈ l → t ∈ l →
        keq (f p) (f t) = true → keq (f q) (f t) = true → keq (f p) (f q) = true) :
    groupFold keq f l
      = (firstSeen keq f l).map (fun k => (k, l.filter (fun x => keq k (f x)))) := by
  induction l using List.reverseRecOn with
  | nil => rfl
  | append_singleton l' a ih =>
    have hrefl' : ∀ x ∈ l', keq (f x) (f x) = true := fun x hx => hrefl x (by simp [hx])
    have htrans' : ∀ p q t, p ∈ l' → q ∈ l' → t ∈ l' →
        keq (f p) (f t) = true → keq (f q) (f t) = true → keq (f p) (f q) = true :=
      fun p q t hp hq ht => htrans p q t (by simp [hp]) (by simp [hq]) (by simp [ht])
    have hgf : groupFold keq f (l' ++ [a]) = upsert keq (groupFold keq f l') (f a) a := by
      simp [groupFold, List.foldl_append]
    rw [hgf, ih hrefl' htrans', firstSeen_append_singleton]
    by_cases h : (firstSeen keq f l').any (fun x => keq x (f a)) = true
    · rw [if_pos h, upsert, if_pos (by simpa using h)]
      rw [List.map_map]
      apply List.map_congr_left
      intro k hk
      by_cases hka : keq k (f a) = true
      · simp [hka, List.filter_append]
      · simp [hka, List.filter_append]
    · have hfalse : ∀ k ∈ firstSeen keq f l', keq k (f a) = false := by
        intro k hk
        have := List.any_eq_false.mp (by simpa using h) k hk
        simpa using this
      rw [if_neg h, upsert, if_neg (by simpa using h)]
      rw [List.map_append]
      congr 1
      · apply List.map_congr_left
        intro k hk
        have hka : keq k (f a) = false := hfalse k hk
        simp [List.filter_append, hka]
      · have hfa : keq (f a) (f a) = true := hrefl a (by simp)
        have hearly : ∀ x ∈ l', keq (f a) (f x) = false := by
          intro x hx
          by_contra hcon
          have hcon' : keq (f a) (f x) = true := by
            cases hax : keq (f a) (f x) with
            | false => exact absurd hax hcon
            | true => rfl
          have hcov := firstSeen_covers keq f l' hrefl' x hx
          obtain ⟨k, hk, hkx⟩ := List.any_eq_true.mp hcov
          obtain ⟨y, hy, rfl⟩ := firstSeen_subset keq f l' k hk
          have hya : keq (f y) (f a) = true :=
            htrans y a x (by simp [hy]) (by simp) (by simp [hx]) hkx hcon'
          rw [hfalse (f y) hk] at hya
          exact absurd hya (by simp)
        have hnil : List.filter (fun x => keq (f a) (f x)) l' = [] :=
          List.filter_eq_nil_iff.mpr (fun x hx => by simp [hearly x hx])
        simp [List.filter_append, hfa, hnil]

theorem mem_jsSort {α : Type} (cmp : α → α → Int) (l : List α) (a : α) :
    a ∈ jsSort cmp l ↔ a ∈ l := by
  simp [jsSort, List.mem_mergeSort]

theorem mem_insertByKey {γ : Type} (key : γ → Nat) (e a : γ) (l : List γ) :
    a ∈ insertByKey key e l ↔ a = e ∨ a ∈ l := by
  induction l with
  | nil => simp [insertByKey]
  | cons x xs ih =>
    by_cases h : key e < key x
    · simp [insertByKey, h]
    · simp [insertByKey, h, ih]
      tauto

theorem mem_sortByKey {γ : Type} (key : γ → Nat) (a : γ) (l : List γ) :
    a ∈ sortByKey key l ↔ a ∈ l := by
  induction l with
  | nil => simp [sortByKey]
  | cons x xs ih => simp [sortByKey, mem_insertByKey, ih]

theorem mem_jsEntriesOrder {β : Type} (entries : List (String × β)) (a : String × β) :
    a ∈ jsEntriesOrder entries ↔ a ∈ entries := by
  simp only [jsEntriesOrder, List.mem_append, mem_sortByKey, List.mem_filter]
  by_cases h : isArrayIndex a.1 = true <;> simp [h]

/-- When no key is array-index-like, `Object.entries` order is plain
insertion order. -/
theorem jsEntriesOrder_eq_self {β : Type} (entries : List (String × β))
    (h : ∀ e ∈ entries, isArrayIndex e.1 = false) :
    jsEntriesOrder entries = entries := by
  have h1 : entries.filter (fun e => isArrayIndex e.1) = [] :=
    List.filter_eq_nil_iff.mpr (fun e he => by simp [h e he])
  have h2 : entries.filter (fun e => !isArrayIndex e.1) = entries :=
    List.filter_eq_self.mpr (fun e he => by simp [h e he])
  simp [jsEntriesOrder, h1, h2, sortByKey]

theorem getCommitGroups_none_none (gb : String) (cs : List JSVal) :
    getCommitGroups gb cs none none
      = (jsEntriesOrder (groupFold (fun a b : String => a == b) (keyOf gb) cs)).map
          (fun e => { title := titleOfKey e.1, commits := e.2 }) := rfl

theorem getCommitGroups_none_some (gb : String) (cs : List JSVal)
    (cmp : JSVal → JSVal → Int) :
    getCommitGroups gb cs none (some cmp)
      = (jsEntriesOrder (groupFold (fun a b : String => a == b) (keyOf gb) cs)).map
          (fun e => { title := titleOfKey e.1, commits := jsSort cmp e.2 }) := rfl

theorem getCommitGroups_some (gb : String) (cs : List JSVal)
    (gcmp : CommitGroup → CommitGroup → Int) (cSort : Option (JSVal → JSVal → Int)) :
    getCommitGroups gb cs (some gcmp) cSort
      = jsSort gcmp (getCommitGroups gb cs none cSort) := by
  cases cSort <;> rfl

theorem getNoteGroups_none_none (ns : List JSVal) :
    getNoteGroups ns none none
      = (groupFold strictEq (fun n => index n "title") ns).map
          (fun e => { title := e.1, notes := e.2 }) := rfl

theorem string_beq_refl (gb : String) (cs : List JSVal) :
    ∀ a ∈ cs, (keyOf gb a == keyOf gb a) = true := by
  intro a _; simp

theorem string_beq_trans (gb : String) (cs : List JSVal) :
    ∀ p q t, p ∈ cs → q ∈ cs → t ∈ cs →
      (keyOf gb p == keyOf gb t) = true → (keyOf gb q == keyOf gb t) = true →
      (keyOf gb p == keyOf gb q) = true := by
  intro p q t _ _ _ h1 h2
  exact beq_iff_eq.mpr ((eq_of_beq h1).trans (eq_of_beq h2).symm)

/-- **C7 counterexample**: `Object.entries` lists array-index-like keys
first, in ascending numeric order, before string keys in insertion order.
For commits `[{type:"feat"}, {type:"0"}]` the code therefore lists the `"0"`
group before the `"feat"` group, although `"feat"` was encountered first — so
`getCommitGroups` does *not* build the group list in encounter order of the
grouping keys for every commit list.  (`getNoteGroups` is a plain array scan
and is unaffected.) -/
theorem c7_counterexample :
    (getCommitGroups "type" [JSVal.obj [("type", JSVal.str "feat")],
        JSVal.obj [("type", JSVal.str "0")]] none none).map (fun g => toPropKey g.title)
      = ["0", "feat"]
    ∧ firstSeen (fun a b : String => a == b) (keyOf "type")
        [JSVal.obj [("type", JSVal.str "feat")], JSVal.obj [("type", JSVal.str "0")]]
      = ["feat", "0"]
    ∧ (["0", "feat"] : List String) ≠ ["feat", "0"] := by
  refine ⟨rfl, rfl, ?_⟩
  decide

/-- **C7 (amended)**: with no sort comparators supplied, `getCommitGroups`
builds the first-seen-ordered buckets (each an order-preserving filter of the
input) and lists them in `Object.entries` enumeration order — array-index-like
keys first in ascending numeric order, then the remaining keys in encounter
order; in particular, when no grouping key is array-index-like (the common
case: keys like `"feat"`, `"fix"`, `""`), the group list is exactly in
encounter order of the grouping keys.  `getNoteGroups` lists note groups in
first-seen-title order with each group holding that title's notes in original
order (note titles are strings, data model §3, which the hypothesis
records). -/
theorem c7_enumeration_order (gb : String) (cs ns : List JSVal)
    (hnoidx : ∀ c ∈ cs, isArrayIndex (keyOf gb c) = false)
    (hstr : ∀ n ∈ ns, ∃ s, index n "title" = JSVal.str s) :
    (∀ cs' : List JSVal, getCommitGroups gb cs' none none
      = (jsEntriesOrder ((firstSeen (fun a b : String => a == b) (keyOf gb) cs').map
          (fun k => (k, cs'.filter (fun c => k == keyOf gb c))))).map
          (fun e => { title := titleOfKey e.1, commits := e.2 }))
    ∧ getCommitGroups gb cs none none
      = (firstSeen (fun a b : String => a == b) (keyOf gb) cs).map
          (fun k => { title := titleOfKey k,
                      commits := cs.filter (fun c => k == keyOf gb c) })
    ∧ getNoteGroups ns none none
      = (firstSeen strictEq (fun n => index n "title") ns).map
          (fun t => { title := t,
                      notes := ns.filter (fun n => strictEq t (index n "title")) }) := by
  have hshape : ∀ cs' : List JSVal, getCommitGroups gb cs' none none
      = (jsEntriesOrder ((firstSeen (fun a b : String => a == b) (keyOf gb) cs').map
          (fun k => (k, cs'.filter (fun c => k == keyOf gb c))))).map
          (fun e => { title := titleOfKey e.1, commits := e.2 }) := by
    intro cs'
    rw [getCommitGroups_none_none,
      groupFold_eq (fun a b : String => a == b) (keyOf gb) cs'
        (string_beq_refl gb cs') (string_beq_trans gb cs')]
  refine ⟨hshape, ?_, ?_⟩
  · have hkeys : ∀ e ∈ (firstSeen (fun a b : String => a == b) (keyOf gb) cs).map
        (fun k => (k, cs.filter (fun c => k == keyOf gb c))),
        isArrayIndex e.1 = false := by
      intro e he
      obtain ⟨k, hk, hke⟩ := List.mem_map.mp he
      obtain ⟨x, hx, hkx⟩ := firstSeen_subset (fun a b : String => a == b) (keyOf gb) cs k hk
      rw [← hke]
      dsimp only
      rw [hkx]
      exact hnoidx x hx
    rw [hshape cs, jsEntriesOrder_eq_self _ hkeys, List.map_map]
    rfl
  · have hrefl : ∀ n ∈ ns, strictEq (index n "title") (index n "title") = true := by
      intro n hn
      obtain ⟨s, hs⟩ := hstr n hn
      rw [hs]
      simp [strictEq]
    have htrans : ∀ p q t, p ∈ ns → q ∈ ns → t ∈ ns →
        strictEq (index p "title") (index t "title") = true →
        strictEq (index q "title") (index t "title") = true →
        strictEq (index p "title") (index q "title") = true := by
      intro p q t hp hq ht h1 h2
      obtain ⟨sp, hsp⟩ := hstr p hp
      obtain ⟨sq, hsq⟩ := hstr q hq
      obtain ⟨st, hst⟩ := hstr t ht
      rw [hsp, hst] at h1
      rw [hsq, hst] at h2
      rw [hsp, hsq]
      simp only [strictEq] at h1 h2 ⊢
      exact beq_iff_eq.mpr ((eq_of_beq h1).trans (eq_of_beq h2).symm)
    rw [getNoteGroups_none_none,
      groupFold_eq strictEq (fun n => index n "title") ns hrefl htrans, List.map_map]
    rfl

theorem c7_enumeration_order_witness :
    (∀ c ∈ [JSVal.obj [("type", JSVal.str "feat")], JSVal.obj []],
        isArrayIndex (keyOf "type" c) = false)
    ∧ (∀ n ∈ [JSVal.obj [("title", JSVal.str "BREAKING CHANGE")]],
        ∃ s, index n "title" = JSVal.str s)
    ∧ getCommitGroups "type" [JSVal.obj [("type", JSVal.str "feat")], JSVal.obj []] none none
      = (firstSeen (fun a b : String => a == b) (keyOf "type")
          [JSVal.obj [("type", JSVal.str "feat")], JSVal.obj []]).map
          (fun k => { title := titleOfKey k,
                      commits := [JSVal.obj [("type", JSVal.str "feat")],
                        JSVal.obj []].filter (fun c => k == keyOf "type" c) })
    ∧ getNoteGroups [JSVal.obj [("title", JSVal.str "BREAKING CHANGE")]] none none
      = (firstSeen strictEq (fun n => index n "title")
          [JSVal.obj [("title", JSVal.str "BREAKING CHANGE")]]).map
          (fun t => { title := t,
                      notes := [JSVal.obj [("title", JSVal.str "BREAKING CHANGE")]].filter
                        (fun n => strictEq t (index n "title")) }) := by
  have hnoidx : ∀ c ∈ [JSVal.obj [("type", JSVal.str "feat")], JSVal.obj []],
      isArrayIndex (keyOf "type" c) = false := by decide
  have hstr : ∀ n ∈ [JSVal.obj [("title", JSVal.str "BREAKING CHANGE")]],
      ∃ s, index n "title" = JSVal.str s := by
    intro n hn
    simp only [List.mem_singleton] at hn
    subst hn
    exact ⟨"BREAKING CHANGE", rfl⟩
  have h := c7_enumeration_order "type"
    [JSVal.obj [("type", JSVal.str "feat")], JSVal.obj []]
    [JSVal.obj [("title", JSVal.str "BREAKING CHANGE")]] hnoidx hstr
  exact ⟨hnoidx, hstr, h.2.1, h.2.2⟩

/-- Named after the spec's words, for comparison with the implementation's
`keyOf`: the claimed key rule `commit[groupField] ?? ''`, under which *only* a
missing or nullish grouping value maps to the empty key and any other value
becomes its property key. -/
def nullishKey (groupBy : String) (c : JSVal) : String :=
  match index c groupBy with
  | .undef => ""
  | .null => ""
  | v => toPropKey v

/-- **C3 counterexample**: the code computes the key with `||`, not `??`.  A
commit whose grouping field is the non-nullish value `false` gets the empty
key (and so lands in the `false`-titled group), whereas the claimed
`commit[groupField] ?? ''` rule would give it the property key `"false"` — so
it is not only missing/nullish grouping fields that map to the empty key. -/
theorem c3_counterexample :
    keyOf "type" (JSVal.obj [("type", JSVal.bool false)]) = ""
    ∧ nullishKey "type" (JSVal.obj [("type", JSVal.bool false)]) = "false"
    ∧ keyOf "type" (JSVal.obj [("type", JSVal.bool false)])
        ≠ nullishKey "type" (JSVal.obj [("type", JSVal.bool false)])
    ∧ getCommitGroups "type" [JSVal.obj [("type", JSVal.bool false)]] none none
        = [{ title := JSVal.bool false, commits := [JSVal.obj [("type", JSVal.bool false)]] }] :=
  ⟨rfl, rfl, by decide, rfl⟩

/-- **C3 (amended)**: `getCommitGroups` computes each commit's grouping key as
`commit[groupField] || ''` — any *falsy* grouping value (absent, `undefined`,
`null`, `false`, `0`, `''`) maps to the empty key — the empty key is
displayed with title `false`, and no commit is ever dropped: every commit of
the input appears in the group titled by its computed key, for any choice of
sort comparators. -/
theorem c3_falsy_key_membership (gb : String) (cs : List JSVal)
    (gSort : Option (CommitGroup → CommitGroup → Int))
    (cSort : Option (JSVal → JSVal → Int)) (c : JSVal) (hc : c ∈ cs) :
    (truthy (index c gb) = false → keyOf gb c = "")
    ∧ titleOfKey "" = JSVal.bool false
    ∧ ∃ g ∈ getCommitGroups gb cs gSort cSort,
        g.title = titleOfKey (keyOf gb c) ∧ c ∈ g.commits := by
  refine ⟨fun h => by simp [keyOf, h], rfl, ?_⟩
  have hGF := groupFold_eq (fun a b : String => a == b) (keyOf gb) cs
    (string_beq_refl gb cs) (string_beq_trans gb cs)
  have hmemFS : keyOf gb c ∈ firstSeen (fun a b : String => a == b) (keyOf gb) cs := by
    have hcov := firstSeen_covers (fun a b : String => a == b) (keyOf gb) cs
      (string_beq_refl gb cs) c hc
    obtain ⟨k, hk, hkc⟩ := List.any_eq_true.mp hcov
    have hkeq : k = keyOf gb c := eq_of_beq hkc
    rwa [hkeq] at hk
  have hcB : c ∈ cs.filter (fun x => keyOf gb c == keyOf gb x) :=
    List.mem_filter.mpr ⟨hc, by simp⟩
  have hnone : ∃ g ∈ getCommitGroups gb cs none cSort,
      g.title = titleOfKey (keyOf gb c) ∧ c ∈ g.commits := by
    cases cSort with
    | none =>
      rw [getCommitGroups_none_none, hGF]
      refine ⟨_, List.mem_map.mpr
        ⟨(keyOf gb c, cs.filter (fun x => keyOf gb c == keyOf gb x)),
         (mem_jsEntriesOrder _ _).mpr (List.mem_map.mpr ⟨keyOf gb c, hmemFS, rfl⟩), rfl⟩,
        rfl, hcB⟩
    | some cmp =>
      rw [getCommitGroups_none_some, hGF]
      exact ⟨_, List.mem_map.mpr
        ⟨(keyOf gb c, cs.filter (fun x => keyOf gb c == keyOf gb x)),
         (mem_jsEntriesOrder _ _).mpr (List.mem_map.mpr ⟨keyOf gb c, hmemFS, rfl⟩), rfl⟩,
        rfl, (mem_jsSort cmp _ c).mpr hcB⟩
  cases gSort with
  | none => exact hnone
  | some gcmp =>
    obtain ⟨g, hg, hgt, hgc⟩ := hnone
    exact ⟨g, by rw [getCommitGroups_some]; exact (mem_jsSort gcmp _ g).mpr hg, hgt, hgc⟩

theorem c3_falsy_key_membership_witness :
    JSVal.obj [] ∈ [JSVal.obj [("type", JSVal.str "feat")], JSVal.obj []]
    ∧ (truthy (index (JSVal.obj []) "type") = false → keyOf "type" (JSVal.obj []) = "")
    ∧ titleOfKey "" = JSVal.bool false
    ∧ ∃ g ∈ getCommitGroups "type" [JSVal.obj [("type", JSVal.str "feat")], JSVal.obj []]
          none none,
        g.title = titleOfKey (keyOf "type" (JSVal.obj [])) ∧ JSVal.obj [] ∈ g.commits := by
  have hc : JSVal.obj [] ∈ [JSVal.obj [("type", JSVal.str "feat")], JSVal.obj []] := by simp
  have h := c3_falsy_key_membership "type"
    [JSVal.obj [("type", JSVal.str "feat")], JSVal.obj []] none none (JSVal.obj []) hc
  exact ⟨hc, h.1, h.2.1, h.2.2⟩

/-- **C6 counterexample**: the claim says `isPatch` is computed only when it
"was not already supplied", every other case preserving the pre-existing
value — but the code computes `context.isPatch || patch !== 0`, so a context
that *supplies* `isPatch: false` together with a valid version of non-zero
patch gets `isPatch` overwritten to `true`. -/
theorem c6_counterexample :
    index (JSVal.obj [("version", JSVal.str "0.0.1"), ("isPatch", JSVal.bool false)])
        "isPatch" = JSVal.bool false
    ∧ applyIsPatch (JSVal.obj [("version", JSVal.str "0.0.1"), ("isPatch", JSVal.bool false)])
      = JSVal.obj [("version", JSVal.str "0.0.1"), ("isPatch", JSVal.bool true)] :=
  ⟨rfl, rfl⟩

/-- **C6 (amended)**: when `context.version` is not a syntactically valid
semantic version (or not a string), the context is untouched; when it is
valid, `isPatch` is *assigned*: a truthy pre-existing `isPatch` is written
back unchanged, while a falsy or absent one becomes the boolean
`patch ≠ 0` (so with a valid version and zero patch an absent `isPatch`
materialises as `false`, and a supplied falsy `isPatch` is overwritten
whenever `patch ≠ 0`). -/
theorem c6_isPatch (ctx : JSVal) :
    (∀ s, index ctx "version" = JSVal.str s → parseSemver s = none →
      applyIsPatch ctx = ctx)
    ∧ ((∀ s, index ctx "version" ≠ JSVal.str s) → applyIsPatch ctx = ctx)
    ∧ (∀ s t, index ctx "version" = JSVal.str s → parseSemver s = some t →
        truthy (index ctx "isPatch") = true →
        applyIsPatch ctx = objAssign ctx "isPatch" (index ctx "isPatch"))
    ∧ (∀ s t, index ctx "version" = JSVal.str s → parseSemver s = some t →
        truthy (index ctx "isPatch") = false →
        applyIsPatch ctx = objAssign ctx "isPatch" (JSVal.bool (t.2.2 != 0))) := by
  have hval : ∀ (s : String) (t : Nat × Nat × Nat),
      parseSemver s = some t → truthy (JSVal.str s) = true := by
    intro s t hp
    by_cases he : s = ""
    · rw [he] at hp
      have hnone : parseSemver "" = none := rfl
      rw [hnone] at hp
      simp at hp
    · simp [truthy, he]
  refine ⟨?_, ?_, ?_, ?_⟩
  · intro s hs hp
    simp [applyIsPatch, hs, hp]
  · intro h2
    match hv : index ctx "version" with
    | .str s => exact absurd hv (h2 s)
    | .undef => simp [applyIsPatch, hv, truthy]
    | .null => simp [applyIsPatch, hv, truthy]
    | .bool b => simp only [applyIsPatch, hv]; split <;> rfl
    | .num n => simp only [applyIsPatch, hv]; split <;> rfl
    | .obj fs => simp [applyIsPatch, hv, truthy]
    | .arr es => simp [applyIsPatch, hv, truthy]
  · intro s t hs hp hT
    simp [applyIsPatch, hs, hp, hval s t hp, hT]
  · intro s t hs hp hT
    simp [applyIsPatch, hs, hp, hval s t hp, hT]

theorem c6_isPatch_witness :
    index (JSVal.obj [("version", JSVal.str "0.0.1")]) "version" = JSVal.str "0.0.1"
    ∧ parseSemver "0.0.1" = some (0, 0, 1)
    ∧ truthy (index (JSVal.obj [("version", JSVal.str "0.0.1")]) "isPatch") = false
    ∧ applyIsPatch (JSVal.obj [("version", JSVal.str "0.0.1")])
        = objAssign (JSVal.obj [("version", JSVal.str "0.0.1")]) "isPatch"
            (JSVal.bool (((0, 0, 1) : Nat × Nat × Nat).2.2 != 0)) :=
  ⟨rfl, rfl, rfl,
    (c6_isPatch (JSVal.obj [("version", JSVal.str "0.0.1")])).2.2.2 "0.0.1" (0, 0, 1)
      rfl rfl rfl⟩

/-- **C1**: in forward mode, when the boundary predicate fires on the key
commit against the accumulated group, the step renders the *accumulated*
`commitsGroup` keyed by the *old* `savedKeyCommit`, emits it unless this is
the very first release closure with `doFlush` false, and the new state has an
empty-then-repopulated group (only the current commit, when truthy), a
cleared `firstRelease`, and `savedKeyCommit` set to the current key commit —
the current commit is appended only after the reset. -/
theorem c1_forward_boundary {α : Type} (opts : EngineOpts)
    (P : JSVal → List JSVal → Bool) (gen : List JSVal → Option JSVal → α)
    (norm : JSVal → Option JSVal) (st : EngineState) (chunk commit : JSVal)
    (hrev : opts.reverse = false)
    (hn : norm chunk = some commit)
    (hP : P (keyCommitOf commit chunk) st.commitsGroup = true) :
    engineStep opts P gen norm st chunk = some
      ({ commitsGroup := if truthy commit then [commit] else [],
         neverGenerated := false,
         savedKeyCommit := some (keyCommitOf commit chunk),
         firstRelease := false },
       if !st.firstRelease || opts.doFlush then
         [mkEmission opts gen st.commitsGroup st.savedKeyCommit]
       else []) := by
  simp [engineStep, hn, hrev, hP]

theorem c1_forward_boundary_witness :
    (({ reverse := false, doFlush := true, includeDetails := false } : EngineOpts).reverse
        = false)
    ∧ (fun (c : JSVal) => some c) (JSVal.obj []) = some (JSVal.obj [])
    ∧ (fun (_ : JSVal) (_ : List JSVal) => true)
        (keyCommitOf (JSVal.obj []) (JSVal.obj [])) initState.commitsGroup = true
    ∧ engineStep { reverse := false, doFlush := true, includeDetails := false }
        (fun _ _ => true) (fun g k => (g, k)) (fun c => some c) initState (JSVal.obj [])
      = some
        ({ commitsGroup := if truthy (JSVal.obj []) then [JSVal.obj []] else [],
           neverGenerated := false,
           savedKeyCommit := some (keyCommitOf (JSVal.obj []) (JSVal.obj [])),
           firstRelease := false },
         if !initState.firstRelease
             || ({ reverse := false, doFlush := true, includeDetails := false } : EngineOpts).doFlush then
           [mkEmission { reverse := false, doFlush := true, includeDetails := false }
             (fun g k => (g, k)) initState.commitsGroup initState.savedKeyCommit]
         else []) :=
  ⟨rfl, rfl, rfl,
    c1_forward_boundary { reverse := false, doFlush := true, includeDetails := false }
      (fun _ _ => true) (fun g k => (g, k)) (fun c => some c) initState
      (JSVal.obj []) (JSVal.obj []) rfl rfl rfl⟩

/-- **C9**: error-handling of normalization.  (1) A failed JSON decode is
swallowed: processing continues on the original chunk, with no error.  (2) A
function-form transform returning a falsy value yields exactly that falsy
value, with no `raw` field attached (there is no object to attach it to).
(3)/(4) In the engine (forward and reverse mode), a falsy normalized commit
is never appended to the release group, yet the boundary predicate is
evaluated at the raw chunk (`keyCommit = commit || chunk`), which also
becomes the saved key commit when a forward boundary fires. -/
theorem c9_normalize_error_handling {α : Type} :
    (∀ (decode : JSVal → Option JSVal) (t : Transform) (ctx chunk : JSVal),
        decode chunk = none →
        processCommit decode t ctx chunk = processDecoded t ctx chunk)
    ∧ (∀ (decode : JSVal → Option JSVal) (f : JSVal → JSVal → JSVal) (ctx chunk : JSVal),
        decode chunk = none →
        truthy (f (cloneCommit chunk) ctx) = false →
        processCommit decode (.tfn f) ctx chunk = some (f (cloneCommit chunk) ctx))
    ∧ (∀ (opts : EngineOpts) (P : JSVal → List JSVal → Bool)
          (gen : List JSVal → Option JSVal → α) (norm : JSVal → Option JSVal)
          (st : EngineState) (chunk commit : JSVal),
        opts.reverse = false → norm chunk = some commit → truthy commit = false →
        engineStep opts P gen norm st chunk =
          if P chunk st.commitsGroup then
            some ({ commitsGroup := [], neverGenerated := false,
                    savedKeyCommit := some chunk, firstRelease := false },
                  if !st.firstRelease || opts.doFlush then
                    [mkEmission opts gen st.commitsGroup st.savedKeyCommit]
                  else [])
          else some (st, []))
    ∧ (∀ (opts : EngineOpts) (P : JSVal → List JSVal → Bool)
          (gen : List JSVal → Option JSVal → α) (norm : JSVal → Option JSVal)
          (st : EngineState) (chunk commit : JSVal),
        opts.reverse = true → norm chunk = some commit → truthy commit = false →
        engineStep opts P gen norm st chunk =
          if P chunk st.commitsGroup then
            some ({ st with commitsGroup := [], neverGenerated := false },
                  [mkEmission opts gen st.commitsGroup (some chunk)])
          else some (st, [])) := by
  refine ⟨?_, ?_, ?_, ?_⟩
  · intro decode t ctx chunk hdec
    simp [processCommit, hdec]
  · intro decode f ctx chunk hdec hf
    simp [processCommit, processDecoded, hdec, hf]
  · intro opts P gen norm st chunk commit hrev hn hf
    obtain ⟨g, ng, sk, fr⟩ := st
    simp only [engineStep, hn, hrev, keyCommitOf, hf, Bool.false_eq_true, if_false,
      List.append_nil]
  · intro opts P gen norm st chunk commit hrev hn hf
    obtain ⟨g, ng, sk, fr⟩ := st
    simp only [engineStep, hn, hrev, keyCommitOf, hf, Bool.false_eq_true, if_false,
      if_true, List.append_nil]

theorem c9_normalize_error_handling_witness :
    ((fun (_ : JSVal) => (none : Option JSVal)) (JSVal.str "not json") = none
      ∧ processCommit (fun _ => none) Transform.tnone (JSVal.obj []) (JSVal.str "not json")
          = processDecoded Transform.tnone (JSVal.obj []) (JSVal.str "not json"))
    ∧ (truthy ((fun (_ _ : JSVal) => JSVal.undef) (cloneCommit (JSVal.obj [])) (JSVal.obj []))
          = false
      ∧ processCommit (fun _ => none) (.tfn (fun _ _ => JSVal.undef)) (JSVal.obj [])
          (JSVal.obj []) = some JSVal.undef)
    ∧ engineStep { reverse := false, doFlush := true, includeDetails := false }
        (fun _ _ => true) (fun (g : List JSVal) (k : Option JSVal) => (g, k))
        (fun _ => some JSVal.undef) initState (JSVal.obj [("hash", JSVal.str "h")])
      = some ({ commitsGroup := [], neverGenerated := false,
                savedKeyCommit := some (JSVal.obj [("hash", JSVal.str "h")]),
                firstRelease := false },
              [mkEmission { reverse := false, doFlush := true, includeDetails := false }
                (fun g k => (g, k)) initState.commitsGroup initState.savedKeyCommit])
    ∧ engineStep { reverse := true, doFlush := true, includeDetails := false }
        (fun _ _ => false) (fun (g : List JSVal) (k : Option JSVal) => (g, k))
        (fun _ => some JSVal.undef) initState (JSVal.obj [("hash", JSVal.str "h")])
      = some (initState, []) := by
  have h := c9_normalize_error_handling
    (α := List JSVal × Option JSVal)
  refine ⟨⟨rfl, h.1 (fun _ => none) Transform.tnone (JSVal.obj []) (JSVal.str "not json") rfl⟩,
    ⟨rfl, h.2.1 (fun _ => none) (fun _ _ => JSVal.undef) (JSVal.obj []) (JSVal.obj []) rfl rfl⟩,
    ?_, ?_⟩
  · have h3 := h.2.2.1 { reverse := false, doFlush := true, includeDetails := false }
      (fun _ _ => true) (fun g k => (g, k)) (fun _ => some JSVal.undef) initState
      (JSVal.obj [("hash", JSVal.str "h")]) JSVal.undef rfl rfl rfl
    rw [h3]
    rfl
  · have h4 := h.2.2.2 { reverse := true, doFlush := true, includeDetails := false }
      (fun _ _ => false) (fun g k => (g, k)) (fun _ => some JSVal.undef) initState
      (JSVal.obj [("hash", JSVal.str "h")]) JSVal.undef rfl rfl rfl
    rw [h4]
    rfl

/-- **C2 counterexample**: forward mode, `doFlush = false`, a single chunk on
which the boundary predicate fires.  During processing nothing is ever
emitted (the one render is suppressed as the very first release), so under
the claim — "stops without emitting ... exactly when doFlush is false and
(reverse or no emission ever happened)" — the engine should discard the
remainder; instead it emits the final flush, because the code's condition
tests `neverGenerated` (was a render ever *attempted*), which the suppressed
render has already cleared. -/
theorem c2_counterexample :
    (runLoop { reverse := false, doFlush := false, includeDetails := false }
        (fun _ _ => true) (fun (g : List JSVal) (k : Option JSVal) => (g, k))
        (fun c => some c) initState [JSVal.obj []]).map (fun r => r.2)
      = some []
    ∧ runEngine { reverse := false, doFlush := false, includeDetails := false }
        (fun _ _ => true) (fun (g : List JSVal) (k : Option JSVal) => (g, k))
        (fun c => some c) [JSVal.obj []]
      = some [Emission.plain ([JSVal.obj []], some (JSVal.obj []))] :=
  ⟨rfl, rfl⟩

/-- **C2 (amended)**: on exhaustion the engine stops without emitting the
accumulated remainder exactly when `doFlush` is false and (`reverse` is true
or *no render was ever attempted* — `neverGenerated`, which a step clears
precisely when the boundary predicate fires, whether or not the resulting
render is emitted); in every other case it renders the remaining
`commitsGroup` keyed by `savedKeyCommit` and emits that final flush,
regardless of mode. -/
theorem c2_finish_condition {α : Type} :
    (∀ (opts : EngineOpts) (P : JSVal → List JSVal → Bool)
        (gen : List JSVal → Option JSVal → α) (norm : JSVal → Option JSVal)
        (st : EngineState) (chunk commit : JSVal) (stOut : EngineState)
        (ems : List (Emission α)),
      norm chunk = some commit →
      engineStep opts P gen norm st chunk = some (stOut, ems) →
      stOut.neverGenerated
        = (st.neverGenerated
            && !(P (keyCommitOf commit chunk)
                  (if opts.reverse then
                     (if truthy commit then st.commitsGroup ++ [commit]
                      else st.commitsGroup)
                   else st.commitsGroup))))
    ∧ (∀ (opts : EngineOpts) (P : JSVal → List JSVal → Bool)
        (gen : List JSVal → Option JSVal → α) (norm : JSVal → Option JSVal)
        (chunks : List JSVal) (st : EngineState) (ems : List (Emission α)),
      runLoop opts P gen norm initState chunks = some (st, ems) →
      runEngine opts P gen norm chunks
        = some (ems ++
            if !opts.doFlush && (opts.reverse || st.neverGenerated) then []
            else [mkEmission opts gen st.commitsGroup st.savedKeyCommit])) := by
  constructor
  · intro opts P gen norm st chunk commit stOut ems hn hstep
    simp only [engineStep, hn] at hstep
    cases hrev : opts.reverse with
    | true =>
      rw [hrev] at hstep
      simp only [if_true] at hstep
      by_cases hP : P (keyCommitOf commit chunk)
          (if truthy commit then st.commitsGroup ++ [commit] else st.commitsGroup) = true
      · rw [if_pos hP] at hstep
        simp only [Option.some.injEq, Prod.mk.injEq] at hstep
        rw [← hstep.1]
        simp [hP]
      · rw [if_neg hP] at hstep
        simp only [Option.some.injEq, Prod.mk.injEq] at hstep
        rw [← hstep.1]
        simp only [Bool.not_eq_true] at hP
        simp [hP]
    | false =>
      rw [hrev] at hstep
      simp only [Bool.false_eq_true, if_false] at hstep
      by_cases hP : P (keyCommitOf commit chunk) st.commitsGroup = true
      · rw [if_pos hP] at hstep
        simp only [Option.some.injEq, Prod.mk.injEq] at hstep
        rw [← hstep.1]
        simp [hP]
      · rw [if_neg hP] at hstep
        simp only [Option.some.injEq, Prod.mk.injEq] at hstep
        rw [← hstep.1]
        simp only [Bool.not_eq_true] at hP
        simp [hP]
  · intro opts P gen norm chunks st ems hloop
    simp only [runEngine, hloop, engineFinish]

theorem c2_finish_condition_witness :
    ((fun (c : JSVal) => some c) (JSVal.obj []) = some (JSVal.obj [])
      ∧ engineStep { reverse := false, doFlush := false, includeDetails := false }
          (fun _ _ => true) (fun (g : List JSVal) (k : Option JSVal) => (g, k))
          (fun c => some c) initState (JSVal.obj [])
        = some ({ commitsGroup := [JSVal.obj []], neverGenerated := false,
                  savedKeyCommit := some (JSVal.obj []), firstRelease := false }, [])
      ∧ (({ commitsGroup := [JSVal.obj []], neverGenerated := false,
            savedKeyCommit := some (JSVal.obj []),
            firstRelease := false } : EngineState)).neverGenerated
        = (initState.neverGenerated
            && !((fun (_ : JSVal) (_ : List JSVal) => true)
                  (keyCommitOf (JSVal.obj []) (JSVal.obj []))
                  (if ({ reverse := false, doFlush := false,
                         includeDetails := false } : EngineOpts).reverse then
                     (if truthy (JSVal.obj []) then
                        initState.commitsGroup ++ [JSVal.obj []]
                      else initState.commitsGroup)
                   else initState.commitsGroup))))
    ∧ (runLoop { reverse := false, doFlush := false, includeDetails := false }
          (fun _ _ => true) (fun (g : List JSVal) (k : Option JSVal) => (g, k))
          (fun c => some c) initState [JSVal.obj []]
        = some ({ commitsGroup := [JSVal.obj []], neverGenerated := false,
                  savedKeyCommit := some (JSVal.obj []), firstRelease := false }, [])
      ∧ runEngine { reverse := false, doFlush := false, includeDetails := false }
          (fun _ _ => true) (fun (g : List JSVal) (k : Option JSVal) => (g, k))
          (fun c => some c) [JSVal.obj []]
        = some ([] ++
            if !({ reverse := false, doFlush := false,
                   includeDetails := false } : EngineOpts).doFlush
                && (({ reverse := false, doFlush := false,
                       includeDetails := false } : EngineOpts).reverse
                    || ({ commitsGroup := [JSVal.obj []], neverGenerated := false,
                          savedKeyCommit := some (JSVal.obj []),
                          firstRelease := false } : EngineState).neverGenerated) then []
            else [mkEmission { reverse := false, doFlush := false, includeDetails := false }
                   (fun g k => (g, k))
                   ({ commitsGroup := [JSVal.obj []], neverGenerated := false,
                      savedKeyCommit := some (JSVal.obj []),
                      firstRelease := false } : EngineState).commitsGroup
                   ({ commitsGroup := [JSVal.obj []], neverGenerated := false,
                      savedKeyCommit := some (JSVal.obj []),
                      firstRelease := false } : EngineState).savedKeyCommit])) := by
  refine ⟨⟨rfl, rfl, ?_⟩, rfl, ?_⟩
  · exact (c2_finish_condition (α := List JSVal × Option JSVal)).1
      { reverse := false, doFlush := false, includeDetails := false }
      (fun _ _ => true) (fun g k => (g, k)) (fun c => some c) initState
      (JSVal.obj []) (JSVal.obj [])
      { commitsGroup := [JSVal.obj []], neverGenerated := false,
        savedKeyCommit := some (JSVal.obj []), firstRelease := false } [] rfl rfl
  · exact (c2_finish_condition (α := List JSVal × Option JSVal)).2
      { reverse := false, doFlush := false, includeDetails := false }
      (fun _ _ => true) (fun g k => (g, k)) (fun c => some c) [JSVal.obj []]
      { commitsGroup := [JSVal.obj []], neverGenerated := false,
        savedKeyCommit := some (JSVal.obj []), firstRelease := false } [] rfl

/-- The two-element reverse-mode input of the claim. -/
def chunkV2 : JSVal := .obj [("version", .str "2.0.0")]

def chunkV1 : JSVal := .obj [("version", .str "1.0.0")]

/-- A function-form identity transform with always-failing JSON decode
(`JSON.parse` of a non-string chunk throws and is swallowed), so each chunk
normalizes to itself plus the attached `raw` field. -/
def normIdentity : JSVal → Option JSVal :=
  processCommit (fun _ => none) (.tfn (fun c _ => c)) (.obj [])

/-- `chunkV2` after normalization. -/
def procV2 : JSVal := .obj [("version", .str "2.0.0"), ("raw", chunkV2)]

/-- `chunkV1` after normalization. -/
def procV1 : JSVal := .obj [("version", .str "1.0.0"), ("raw", chunkV1)]

/-- **C8 counterexample**: under the default options (`doFlush = true`) the
reverse-mode run over `[{version:"2.0.0"}, {version:"1.0.0"}]` yields *three*
emissions, not two: after the two boundary releases, the termination rule
(`!doFlush && (reverse || neverGenerated)` is false) renders the now-empty
remainder keyed by the never-assigned `savedKeyCommit` (`undefined`) and
emits that trailing flush as well. -/
theorem c8_counterexample :
    (runEngine { reverse := true, doFlush := true, includeDetails := false }
        defaultGenerateOn (fun (g : List JSVal) (k : Option JSVal) => (g, k))
        normIdentity [chunkV2, chunkV1]).map List.length = some 3 := rfl

/-- **C8 (amended)**: in reverse mode with the default semantic-version
boundary predicate, the input `[{version:"2.0.0"}, {version:"1.0.0"}]`
produces exactly two boundary releases, each keyed by its own (normalized)
commit and containing exactly that one commit — followed, when `doFlush` is
true (the default), by a trailing flush of the empty remainder keyed by
`undefined`; with `doFlush` false the output is exactly the two releases. -/
theorem c8_reverse_two_releases {α : Type} (gen : List JSVal → Option JSVal → α) :
    runEngine { reverse := true, doFlush := true, includeDetails := false }
        defaultGenerateOn gen normIdentity [chunkV2, chunkV1]
      = some [.plain (gen [procV2] (some procV2)),
              .plain (gen [procV1] (some procV1)),
              .plain (gen [] none)]
    ∧ runEngine { reverse := true, doFlush := false, includeDetails := false }
        defaultGenerateOn gen normIdentity [chunkV2, chunkV1]
      = some [.plain (gen [procV2] (some procV2)),
              .plain (gen [procV1] (some procV1))] := by
  constructor <;> rfl

/-- A step never invents a saved key before its first render: if
`neverGenerated` still holds after the step, `savedKeyCommit` is unchanged
from a state with the same property. -/
theorem engineStep_savedKey_inv {α : Type} (opts : EngineOpts)
    (P : JSVal → List JSVal → Bool) (gen : List JSVal → Option JSVal → α)
    (norm : JSVal → Option JSVal) (st : EngineState) (chunk : JSVal)
    (stOut : EngineState) (ems : List (Emission α))
    (hstep : engineStep opts P gen norm st chunk = some (stOut, ems))
    (hinv : st.neverGenerated = true → st.savedKeyCommit = none) :
    stOut.neverGenerated = true → stOut.savedKeyCommit = none := by
  cases hn : norm chunk with
  | none => rw [engineStep, hn] at hstep; exact absurd hstep (by simp)
  | some commit =>
    simp only [engineStep, hn] at hstep
    cases hrev : opts.reverse with
    | true =>
      rw [hrev] at hstep
      simp only [if_true] at hstep
      by_cases hP : P (keyCommitOf commit chunk)
          (if truthy commit then st.commitsGroup ++ [commit] else st.commitsGroup) = true
      · rw [if_pos hP] at hstep
        simp only [Option.some.injEq, Prod.mk.injEq] at hstep
        rw [← hstep.1]
        intro hng
        simp at hng
      · rw [if_neg hP] at hstep
        simp only [Option.some.injEq, Prod.mk.injEq] at hstep
        rw [← hstep.1]
        exact hinv
    | false =>
      rw [hrev] at hstep
      simp only [Bool.false_eq_true, if_false] at hstep
      by_cases hP : P (keyCommitOf commit chunk) st.commitsGroup = true
      · rw [if_pos hP] at hstep
        simp only [Option.some.injEq, Prod.mk.injEq] at hstep
        rw [← hstep.1]
        intro hng
        simp at hng
      · rw [if_neg hP] at hstep
        simp only [Option.some.injEq, Prod.mk.injEq] at hstep
        rw [← hstep.1]
        exact hinv

/-- The saved-key invariant across the whole loop. -/
theorem runLoop_savedKey_inv {α : Type} (opts : EngineOpts)
    (P : JSVal → List JSVal → Bool) (gen : List JSVal → Option JSVal → α)
    (norm : JSVal → Option JSVal) :
    ∀ (chunks : List JSVal) (st stOut : EngineState) (ems : List (Emission α)),
      (st.neverGenerated = true → st.savedKeyCommit = none) →
      runLoop opts P gen norm st chunks = some (stOut, ems) →
      stOut.neverGenerated = true → stOut.savedKeyCommit = none := by
  intro chunks
  induction chunks with
  | nil =>
    intro st stOut ems hinv hloop
    simp only [runLoop, Option.some.injEq, Prod.mk.injEq] at hloop
    rw [← hloop.1]
    exact hinv
  | cons chunk rest ih =>
    intro st stOut ems hinv hloop
    rw [runLoop] at hloop
    cases hstep : engineStep opts P gen norm st chunk with
    | none => rw [hstep] at hloop; exact absurd hloop (by simp)
    | some r =>
      rw [hstep] at hloop
      dsimp only at hloop
      cases hrest : runLoop opts P gen norm r.1 rest with
      | none => rw [hrest] at hloop; exact absurd hloop (by simp)
      | some r' =>
        rw [hrest] at hloop
        dsimp only at hloop
        simp only [Option.some.injEq, Prod.mk.injEq] at hloop
        have hinv' := engineStep_savedKey_inv opts P gen norm st chunk r.1 r.2
          (by rw [hstep]) hinv
        have := ih r.1 r'.1 r'.2 hinv' (by rw [hrest])
        rw [← hloop.1]
        exact this

/-- A concrete option record for witnesses: default-like generate options
with an identity revert filter. -/
def gopts0 : GenOpts :=
  { groupBy := "type", commitGroupsSort := none, commitsSort := none,
    noteGroupsSort := none, notesSort := none, ignoreReverted := true,
    filterReverted := fun cs => cs }

/-- **C10**: in forward mode the very first boundary (and a final flush when
no boundary was ever reached) is keyed by a `savedKeyCommit` that is still
`undefined`: (1) as long as no render was attempted, the loop keeps
`savedKeyCommit = undefined`; (2) a forward boundary firing from such a state
renders the group with key `undefined` and, with `includeDetails` set, emits
`{log, keyCommit: undefined}`; (3) likewise the final flush from such a
state; (4) `generate`'s context assembly with an `undefined` key commit
merges no key-commit fields and applies no date override — the context is
just the base context merged with the computed extras, then the `isPatch`
rule. -/
theorem c10_first_release_undefined_key {α : Type} :
    (∀ (opts : EngineOpts) (P : JSVal → List JSVal → Bool)
        (gen : List JSVal → Option JSVal → α) (norm : JSVal → Option JSVal)
        (chunks : List JSVal) (st : EngineState) (ems : List (Emission α)),
      runLoop opts P gen norm initState chunks = some (st, ems) →
      st.neverGenerated = true → st.savedKeyCommit = none)
    ∧ (∀ (opts : EngineOpts) (P : JSVal → List JSVal → Bool)
        (gen : List JSVal → Option JSVal → α) (norm : JSVal → Option JSVal)
        (st : EngineState) (chunk commit : JSVal),
      opts.reverse = false → opts.includeDetails = true →
      norm chunk = some commit → st.savedKeyCommit = none →
      P (keyCommitOf commit chunk) st.commitsGroup = true →
      engineStep opts P gen norm st chunk = some
        ({ commitsGroup := if truthy commit then [commit] else [],
           neverGenerated := false,
           savedKeyCommit := some (keyCommitOf commit chunk),
           firstRelease := false },
         if !st.firstRelease || opts.doFlush then
           [Emission.detailed (gen st.commitsGroup none) none]
         else []))
    ∧ (∀ (opts : EngineOpts) (gen : List JSVal → Option JSVal → α) (st : EngineState),
      opts.includeDetails = true → st.savedKeyCommit = none →
      engineFinish opts gen st
        = if !opts.doFlush && (opts.reverse || st.neverGenerated) then []
          else [Emission.detailed (gen st.commitsGroup none) none])
    ∧ (∀ (o : GenOpts) (commits : List JSVal) (context : JSVal),
      generateContext o commits context none
        = applyIsPatch (JSVal.obj (mergeFields (spreadFields context)
            (getExtraContext
              (flattenNotes (if o.ignoreReverted then o.filterReverted commits
                else commits)).1
              (flattenNotes (if o.ignoreReverted then o.filterReverted commits
                else commits)).2 o)))) := by
  refine ⟨?_, ?_, ?_, ?_⟩
  · intro opts P gen norm chunks st ems hloop
    exact runLoop_savedKey_inv opts P gen norm chunks initState st ems
      (fun _ => rfl) hloop
  · intro opts P gen norm st chunk commit hrev hdet hn hsk hP
    simp [engineStep, hn, hrev, hP, hsk, mkEmission, hdet]
  · intro opts gen st hdet hsk
    simp [engineFinish, mkEmission, hdet, hsk]
  · intro o commits context
    rfl

theorem c10_first_release_undefined_key_witness :
    (runLoop { reverse := false, doFlush := true, includeDetails := true }
        (fun _ _ => false) (fun (g : List JSVal) (k : Option JSVal) => (g, k))
        (fun c => some c) initState [JSVal.obj []]
      = some ({ commitsGroup := [JSVal.obj []], neverGenerated := true,
                savedKeyCommit := none, firstRelease := true }, [])
      ∧ ({ commitsGroup := [JSVal.obj []], neverGenerated := true,
           savedKeyCommit := none, firstRelease := true } : EngineState).savedKeyCommit
        = none)
    ∧ engineStep { reverse := false, doFlush := true, includeDetails := true }
        (fun _ _ => true) (fun (g : List JSVal) (k : Option JSVal) => (g, k))
        (fun c => some c) initState (JSVal.obj [])
      = some
        ({ commitsGroup := if truthy (JSVal.obj []) then [JSVal.obj []] else [],
           neverGenerated := false,
           savedKeyCommit := some (keyCommitOf (JSVal.obj []) (JSVal.obj [])),
           firstRelease := false },
         if !initState.firstRelease
             || ({ reverse := false, doFlush := true,
                   includeDetails := true } : EngineOpts).doFlush then
           [Emission.detailed
             ((fun (g : List JSVal) (k : Option JSVal) => (g, k))
               initState.commitsGroup none) none]
         else [])
    ∧ engineFinish { reverse := false, doFlush := true, includeDetails := true }
        (fun (g : List JSVal) (k : Option JSVal) => (g, k)) initState
      = (if !({ reverse := false, doFlush := true,
                includeDetails := true } : EngineOpts).doFlush
            && (({ reverse := false, doFlush := true,
                   includeDetails := true } : EngineOpts).reverse
                || initState.neverGenerated) then []
         else [Emission.detailed
          ((fun (g : List JSVal) (k : Option JSVal) => (g, k))
            initState.commitsGroup none) none])
    ∧ generateContext gopts0 [] (JSVal.obj []) none
      = applyIsPatch (JSVal.obj (mergeFields (spreadFields (JSVal.obj []))
          (getExtraContext
            (flattenNotes (if gopts0.ignoreReverted
              then gopts0.filterReverted [] else [])).1
            (flattenNotes (if gopts0.ignoreReverted
              then gopts0.filterReverted [] else [])).2 gopts0))) := by
  have h := c10_first_release_undefined_key (α := List JSVal × Option JSVal)
  refine ⟨⟨rfl, ?_⟩, ?_, ?_, ?_⟩
  · exact h.1 { reverse := false, doFlush := true, includeDetails := true }
      (fun _ _ => false) (fun g k => (g, k)) (fun c => some c) [JSVal.obj []]
      { commitsGroup := [JSVal.obj []], neverGenerated := true,
        savedKeyCommit := none, firstRelease := true } [] rfl rfl
  · exact h.2.1 { reverse := false, doFlush := true, includeDetails := true }
      (fun _ _ => true) (fun g k => (g, k)) (fun c => some c) initState
      (JSVal.obj []) (JSVal.obj []) rfl rfl rfl rfl rfl
  · exact h.2.2.1 { reverse := false, doFlush := true, includeDetails := true }
      (fun g k => (g, k)) initState rfl rfl
  · exact h.2.2.2 gopts0 [] (JSVal.obj [])
